import Mathlib

/-!
Verification of the HBC bytecode generator layer
(`include/hermes/BCGen/HBC/BytecodeGenerator.h`).

The development shallowly embeds the data model of the header:

* `AllocationTable` with its inline `allocate` / `getElements` (translated
  directly from the source);
* `BytecodeFunctionGenerator` with the inline members
  `bytecodeGenerationComplete`, `setHighestReadCacheIndex`,
  `setHighestWriteCacheIndex` and `longToShortJump` (the long→short opcode
  correspondence table itself comes from `BytecodeList.def`, which is not part
  of the sources, so it is passed as an explicit parameter);
* the bodies of `shrinkJump`, `serializeBuffer`, `addObjectBuffer`,
  `generate` and the jump-relocation driver are declared but not defined in
  the available sources; they are modelled from the specification, as marked
  in their doc comments.

Machine integers are modelled as `Nat` with explicit `% 2 ^ w` where
truncation matters (the `uint8_t` cache-index setters).  Byte streams are
`List Nat`.
-/

namespace Hbc

/-- An allocation table assigning sequential integer ids, translated from the
source: `indexMap_` is the `DenseMap` (modelled as an association list in
insertion order) and `elements_` the `SmallVector`. -/
structure AllocationTable (α : Type) where
  indexMap : List (α × Nat)
  elements : List α
deriving DecidableEq

namespace AllocationTable

/-- A freshly constructed table: both containers empty (source: default member
initializers). -/
def empty {α : Type} : AllocationTable α := ⟨[], []⟩

/-- Source `allocate`: look the value up in `indexMap_`; if present return its
id, otherwise assign `nextId = indexMap_.size()`, record the forward and
reverse mapping and return `nextId`. -/
def allocate {α : Type} [DecidableEq α] (t : AllocationTable α) (v : α) :
    Nat × AllocationTable α :=
  match t.indexMap.find? (fun p => p.1 == v) with
  | some p => (p.2, t)
  | none =>
    let nextId := t.indexMap.length
    (nextId, ⟨t.indexMap ++ [(v, nextId)], t.elements ++ [v]⟩)

/-- Source `getElements`: the ordered reverse mapping. -/
def getElements {α : Type} (t : AllocationTable α) : List α := t.elements

end AllocationTable

/-- Association of each list element with its position, starting at `k`; the
shape `indexMap_` has in every reachable table state. -/
def zipIdsFrom {α : Type} (k : Nat) : List α → List (α × Nat)
  | [] => []
  | a :: l => (a, k) :: zipIdsFrom (k + 1) l

/-- Index of the first occurrence of `v` (length of the list if absent). -/
def firstIdx {α : Type} [DecidableEq α] (v : α) : List α → Nat
  | [] => 0
  | a :: l => if a = v then 0 else firstIdx v l + 1

/-- The table reached by a sequence of `allocate` calls starting from the
empty table. -/
def buildTable {α : Type} [DecidableEq α] (vals : List α) : AllocationTable α :=
  vals.foldl (fun t v => (t.allocate v).2) .empty

theorem zipIdsFrom_length {α : Type} (k : Nat) (l : List α) :
    (zipIdsFrom k l).length = l.length := by
  induction l generalizing k with
  | nil => rfl
  | cons a l ih => simp [zipIdsFrom, ih]

theorem zipIdsFrom_append {α : Type} (k : Nat) (l₁ l₂ : List α) :
    zipIdsFrom k (l₁ ++ l₂) = zipIdsFrom k l₁ ++ zipIdsFrom (k + l₁.length) l₂ := by
  induction l₁ generalizing k with
  | nil => simp [zipIdsFrom]
  | cons a l ih =>
    have hk : k + 1 + l.length = k + (l.length + 1) := by omega
    simp [zipIdsFrom, ih (k + 1), hk]

theorem find?_zipIdsFrom_of_not_mem {α : Type} [DecidableEq α] (k : Nat)
    (l : List α) (v : α) (h : v ∉ l) :
    (zipIdsFrom k l).find? (fun p => p.1 == v) = none := by
  induction l generalizing k with
  | nil => rfl
  | cons a l ih =>
    have ha : a ≠ v := fun hav => h (hav ▸ List.mem_cons_self a l)
    have hv : v ∉ l := fun hm => h (List.mem_cons_of_mem a hm)
    simp only [zipIdsFrom]
    rw [List.find?_cons_of_neg, ih (k + 1) hv]
    simp [ha]

theorem find?_zipIdsFrom_of_mem {α : Type} [DecidableEq α] (k : Nat)
    (l : List α) (v : α) (h : v ∈ l) :
    (zipIdsFrom k l).find? (fun p => p.1 == v) = some (v, k + firstIdx v l) := by
  induction l generalizing k with
  | nil => cases h
  | cons a l ih =>
    by_cases hav : a = v
    · subst hav
      simp only [zipIdsFrom, firstIdx]
      rw [List.find?_cons_of_pos]
      · simp
      · simp
    · have hv : v ∈ l := by
        cases h with
        | head => exact absurd rfl hav
        | tail _ hm => exact hm
      simp only [zipIdsFrom, firstIdx]
      rw [List.find?_cons_of_neg, ih (k + 1) hv]
      · simp [hav]
        omega
      · simp [hav]

theorem firstIdx_getElem? {α : Type} [DecidableEq α] (v : α) (l : List α)
    (h : v ∈ l) : l[firstIdx v l]? = some v ∧ firstIdx v l < l.length := by
  induction l with
  | nil => cases h
  | cons a l ih =>
    by_cases hav : a = v
    · subst hav
      simp [firstIdx]
    · have hv : v ∈ l := by
        cases h with
        | head => exact absurd rfl hav
        | tail _ hm => exact hm
      have := ih hv
      simp [firstIdx, hav, this.1]
      omega

theorem firstIdx_of_getElem? {α : Type} [DecidableEq α] (l : List α) (i : Nat)
    (v : α) (h : l[i]? = some v) (hnd : l.Nodup) : firstIdx v l = i := by
  induction l generalizing i with
  | nil => simp at h
  | cons a l ih =>
    cases i with
    | zero =>
      simp at h
      simp [firstIdx, h]
    | succ i =>
      simp at h
      have hv : v ∈ l := List.getElem?_mem h
      have hna : a ∉ l := (List.nodup_cons.mp hnd).1
      have hav : a ≠ v := fun hav => hna (hav ▸ hv)
      simp [firstIdx, hav, ih i h (List.nodup_cons.mp hnd).2]

/-- The invariant tying `indexMap_` to `elements_` in every reachable table. -/
def AllocationTable.Inv {α : Type} (t : AllocationTable α) : Prop :=
  t.indexMap = zipIdsFrom 0 t.elements ∧ t.elements.Nodup

theorem allocate_of_mem {α : Type} [DecidableEq α] (t : AllocationTable α)
    (hInv : t.Inv) (v : α) (hm : v ∈ t.elements) :
    t.allocate v = (firstIdx v t.elements, t) := by
  unfold AllocationTable.allocate
  rw [hInv.1, find?_zipIdsFrom_of_mem 0 _ v hm]
  simp

theorem allocate_of_not_mem {α : Type} [DecidableEq α] (t : AllocationTable α)
    (hInv : t.Inv) (v : α) (hm : v ∉ t.elements) :
    t.allocate v =
      (t.elements.length,
        ⟨t.indexMap ++ [(v, t.elements.length)], t.elements ++ [v]⟩) := by
  unfold AllocationTable.allocate
  rw [hInv.1, find?_zipIdsFrom_of_not_mem 0 _ v hm]
  simp [zipIdsFrom_length]

theorem inv_allocate {α : Type} [DecidableEq α] (t : AllocationTable α)
    (hInv : t.Inv) (v : α) : ((t.allocate v).2).Inv := by
  by_cases hm : v ∈ t.elements
  · rw [allocate_of_mem t hInv v hm]
    exact hInv
  · rw [allocate_of_not_mem t hInv v hm]
    constructor
    · show t.indexMap ++ [(v, t.elements.length)] = zipIdsFrom 0 (t.elements ++ [v])
      rw [hInv.1, zipIdsFrom_append]
      simp [zipIdsFrom]
    · show (t.elements ++ [v]).Nodup
      simp [List.nodup_append, hInv.2, hm]

theorem inv_buildTable {α : Type} [DecidableEq α] (vals : List α) :
    (buildTable vals).Inv := by
  induction vals using List.reverseRecOn with
  | nil => exact ⟨rfl, List.nodup_nil⟩
  | append_singleton vs v ih =>
    have : buildTable (vs ++ [v]) = ((buildTable vs).allocate v).2 := by
      simp [buildTable]
    rw [this]
    exact inv_allocate _ ih v

/-- C4: For every sequence of `allocate` calls on an `AllocationTable`:
allocating an already-allocated value returns its existing id with no growth;
allocating a new value assigns `id = current count`; the assigned ids form a
dense `0..n-1` range in first-allocation order; and `getElements[id]` equals
the value that was first allocated with that id. -/
theorem allocationTable_allocate_spec {α : Type} [DecidableEq α]
    (vals : List α) (v : α) :
    (v ∈ (buildTable vals).getElements →
      ((buildTable vals).allocate v).2 = buildTable vals ∧
      (buildTable vals).getElements[((buildTable vals).allocate v).1]? = some v) ∧
    (v ∉ (buildTable vals).getElements →
      ((buildTable vals).allocate v).1 = (buildTable vals).getElements.length ∧
      ((buildTable vals).allocate v).2.getElements =
        (buildTable vals).getElements ++ [v]) ∧
    (∀ i : Nat, ∀ x : α, (buildTable vals).getElements[i]? = some x →
      ((buildTable vals).allocate x).1 = i) := by
  have hInv := inv_buildTable vals
  refine ⟨?_, ?_, ?_⟩
  · intro hm
    rw [allocate_of_mem _ hInv v hm]
    exact ⟨rfl, (firstIdx_getElem? v _ hm).1⟩
  · intro hm
    rw [allocate_of_not_mem _ hInv v hm]
    exact ⟨rfl, rfl⟩
  · intro i x hx
    have hmem : x ∈ (buildTable vals).getElements := List.getElem?_mem hx
    rw [allocate_of_mem _ hInv x hmem]
    exact firstIdx_of_getElem? _ i x hx hInv.2

theorem allocationTable_allocate_spec_witness :
    (20 ∈ (buildTable [10, 20, 10]).getElements ∧
      ((buildTable [10, 20, 10]).allocate 20).2 = buildTable [10, 20, 10] ∧
      (buildTable [10, 20, 10]).getElements[((buildTable [10, 20, 10]).allocate 20).1]? =
        some 20) ∧
    (30 ∉ (buildTable [10, 20, 10]).getElements ∧
      ((buildTable [10, 20, 10]).allocate 30).1 =
        (buildTable [10, 20, 10]).getElements.length) ∧
    ((buildTable [10, 20, 10]).allocate 20).1 = 1 := by
  have hmem : (20 : Nat) ∈ (buildTable [10, 20, 10]).getElements := by decide
  have hnmem : (30 : Nat) ∉ (buildTable [10, 20, 10]).getElements := by decide
  have h1 := (allocationTable_allocate_spec [10, 20, 10] 20).1 hmem
  have h2 := ((allocationTable_allocate_spec [10, 20, 10] 30).2).1 hnmem
  have h3 := ((allocationTable_allocate_spec [10, 20, 10] 20).2).2 1 20 (by decide)
  exact ⟨⟨hmem, h1.1, h1.2⟩, ⟨hnmem, h2.1⟩, h3⟩

/-- One exception-handler record: a protected range plus its handler target
(`HBCExceptionHandlerInfo` from `Exceptions.h`; the spec names the three
offset fields start, end and target). -/
structure HBCExceptionHandlerInfo where
  start : Nat
  end_ : Nat
  target : Nat
deriving DecidableEq

/-- One debug source location entry; the relocation pass only touches the
instruction offset (`address`). -/
structure DebugSourceLocation where
  address : Nat
  line : Nat
  column : Nat
deriving DecidableEq

/-- The per-function generator state, translated from the fields of
`BytecodeFunctionGenerator` (the opcode stream lives in the
`BytecodeInstructionGenerator` base class; bytes are modelled as `Nat`). -/
structure BytecodeFunctionGenerator where
  opcodes : List Nat
  exceptionHandlers : List HBCExceptionHandlerInfo
  frameSize : Nat
  sourceLocation : DebugSourceLocation
  debugLocations : List DebugSourceLocation
  debugVariableNames : List Nat
  lexicalParentID : Option Nat
  lazyFunctions : Bool
  bytecodeSize : Nat
  highestReadCacheIndex : Nat
  highestWriteCacheIndex : Nat
  jumpTable : List Nat
deriving DecidableEq

namespace BytecodeFunctionGenerator

/-- Source `create` factory: fresh generator with the given frame size, all
other fields default-constructed. -/
def create (frameSize : Nat) : BytecodeFunctionGenerator :=
  ⟨[], [], frameSize, ⟨0, 0, 0⟩, [], [], none, false, 0, 0, 0, []⟩

/-- Source inline member: `bytecodeSize_ = opcodes_.size();`. -/
def bytecodeGenerationComplete (fg : BytecodeFunctionGenerator) :
    BytecodeFunctionGenerator :=
  { fg with bytecodeSize := fg.opcodes.length }

/-- Source inline member `setHighestReadCacheIndex(uint8_t sz)`: the argument
is truncated to 8 bits at the call boundary (`uint8_t` parameter), modelled
as an explicit `% 2 ^ 8`. -/
def setHighestReadCacheIndex (fg : BytecodeFunctionGenerator) (sz : Nat) :
    BytecodeFunctionGenerator :=
  { fg with highestReadCacheIndex := sz % 2 ^ 8 }

/-- Source inline member `setHighestWriteCacheIndex(uint8_t sz)`, modelled
like `setHighestReadCacheIndex`. -/
def setHighestWriteCacheIndex (fg : BytecodeFunctionGenerator) (sz : Nat) :
    BytecodeFunctionGenerator :=
  { fg with highestWriteCacheIndex := sz % 2 ^ 8 }

end BytecodeFunctionGenerator

/-- C9: `bytecodeGenerationComplete()` sets the recorded bytecode size to the
current opcode-stream length and changes nothing else; a second call merely
re-records the same length (no call-once enforcement in the code). -/
theorem bytecodeGenerationComplete_frame (fg : BytecodeFunctionGenerator) :
    fg.bytecodeGenerationComplete.bytecodeSize = fg.opcodes.length ∧
    fg.bytecodeGenerationComplete.opcodes = fg.opcodes ∧
    fg.bytecodeGenerationComplete.exceptionHandlers = fg.exceptionHandlers ∧
    fg.bytecodeGenerationComplete.debugLocations = fg.debugLocations ∧
    fg.bytecodeGenerationComplete.jumpTable = fg.jumpTable ∧
    fg.bytecodeGenerationComplete.frameSize = fg.frameSize ∧
    fg.bytecodeGenerationComplete.highestReadCacheIndex = fg.highestReadCacheIndex ∧
    fg.bytecodeGenerationComplete.highestWriteCacheIndex = fg.highestWriteCacheIndex ∧
    fg.bytecodeGenerationComplete.sourceLocation = fg.sourceLocation ∧
    fg.bytecodeGenerationComplete.debugVariableNames = fg.debugVariableNames ∧
    fg.bytecodeGenerationComplete.lexicalParentID = fg.lexicalParentID ∧
    fg.bytecodeGenerationComplete.lazyFunctions = fg.lazyFunctions ∧
    fg.bytecodeGenerationComplete.bytecodeGenerationComplete =
      fg.bytecodeGenerationComplete := by
  simp [BytecodeFunctionGenerator.bytecodeGenerationComplete]

/-- C10: the property-cache high-water marks are 8-bit: the recorded index is
the argument reduced modulo `2 ^ 8`, so the largest representable cache slot
index is 255, and 255 is attained. -/
theorem cacheIndex_mod_256 (fg : BytecodeFunctionGenerator) (sz : Nat) :
    (fg.setHighestReadCacheIndex sz).highestReadCacheIndex = sz % 2 ^ 8 ∧
    (fg.setHighestWriteCacheIndex sz).highestWriteCacheIndex = sz % 2 ^ 8 ∧
    (fg.setHighestReadCacheIndex sz).highestReadCacheIndex ≤ 255 ∧
    (fg.setHighestWriteCacheIndex sz).highestWriteCacheIndex ≤ 255 ∧
    (fg.setHighestReadCacheIndex 255).highestReadCacheIndex = 255 ∧
    (fg.setHighestWriteCacheIndex 255).highestWriteCacheIndex = 255 := by
  refine ⟨rfl, rfl, ?_, ?_, rfl, rfl⟩
  · have : sz % 2 ^ 8 < 2 ^ 8 := Nat.mod_lt _ (by norm_num)
    simp [BytecodeFunctionGenerator.setHighestReadCacheIndex]
    omega
  · have : sz % 2 ^ 8 < 2 ^ 8 := Nat.mod_lt _ (by norm_num)
    simp [BytecodeFunctionGenerator.setHighestWriteCacheIndex]
    omega

/-- Relocation shift of one recorded offset: offsets strictly past the shrink
point move down by the removed byte count (3), offsets at or before it stay.
Modelled from the spec ("decremented by exactly the removed byte count if they
lie past the shrink point"); `Nat` subtraction coincides with the `uint32_t`
arithmetic whenever the offset is not inside the removed 3-byte window. -/
def shrinkOffset (loc x : Nat) : Nat := if loc < x then x - 3 else x

/-- Modelled from the spec: the body of `shrinkJump` is not part of the
available sources (only its declaration, "Shift the bytecode stream starting
from \p loc left by 3 bytes").  It removes the 3 bytes at `[loc, loc+3)` from
the opcode stream and applies `shrinkOffset` to every exception-handler
start/end/target and every debug-location instruction offset. -/
def shrinkJump (fg : BytecodeFunctionGenerator) (loc : Nat) :
    BytecodeFunctionGenerator :=
  { fg with
    opcodes := fg.opcodes.take loc ++ fg.opcodes.drop (loc + 3),
    exceptionHandlers := fg.exceptionHandlers.map fun h =>
      ⟨shrinkOffset loc h.start, shrinkOffset loc h.end_, shrinkOffset loc h.target⟩,
    debugLocations := fg.debugLocations.map fun d =>
      { d with address := shrinkOffset loc d.address } }

theorem shrinkOffset_spec (loc x : Nat) :
    (loc < x → shrinkOffset loc x = x - 3) ∧
    (x ≤ loc → shrinkOffset loc x = x) ∧
    (loc + 3 ≤ x → shrinkOffset loc x + 3 = x) := by
  refine ⟨fun h => ?_, fun h => ?_, fun h => ?_⟩
  · rw [shrinkOffset, if_pos h]
  · rw [shrinkOffset, if_neg (by omega)]
  · rw [shrinkOffset, if_pos (by omega)]
    omega

/-- C2: a `shrinkJump` at `loc` decrements every exception-handler
start/end/target and every debug-location instruction offset that is strictly
greater than `loc` by exactly the removed byte count (3), and leaves every
such offset at or before `loc` unchanged.  The third clause of each group
states exact decrement (`+ 3` recovers the old offset) for offsets past the
removed window. -/
theorem shrinkJump_offsets (fg : BytecodeFunctionGenerator) (loc i j : Nat)
    (h : HBCExceptionHandlerInfo) (d : DebugSourceLocation)
    (hh : fg.exceptionHandlers[i]? = some h)
    (hd : fg.debugLocations[j]? = some d) :
    ∃ h' d',
      (shrinkJump fg loc).exceptionHandlers[i]? = some h' ∧
      (shrinkJump fg loc).debugLocations[j]? = some d' ∧
      ((loc < h.start → h'.start = h.start - 3) ∧
        (h.start ≤ loc → h'.start = h.start) ∧
        (loc + 3 ≤ h.start → h'.start + 3 = h.start)) ∧
      ((loc < h.end_ → h'.end_ = h.end_ - 3) ∧
        (h.end_ ≤ loc → h'.end_ = h.end_) ∧
        (loc + 3 ≤ h.end_ → h'.end_ + 3 = h.end_)) ∧
      ((loc < h.target → h'.target = h.target - 3) ∧
        (h.target ≤ loc → h'.target = h.target) ∧
        (loc + 3 ≤ h.target → h'.target + 3 = h.target)) ∧
      ((loc < d.address → d'.address = d.address - 3) ∧
        (d.address ≤ loc → d'.address = d.address) ∧
        (loc + 3 ≤ d.address → d'.address + 3 = d.address)) ∧
      d'.line = d.line ∧ d'.column = d.column := by
  refine ⟨⟨shrinkOffset loc h.start, shrinkOffset loc h.end_, shrinkOffset loc h.target⟩,
    { d with address := shrinkOffset loc d.address }, ?_, ?_, ?_, ?_, ?_, ?_, rfl, rfl⟩
  · simp [shrinkJump, hh]
  · simp [shrinkJump, hd]
  · exact shrinkOffset_spec loc h.start
  · exact shrinkOffset_spec loc h.end_
  · exact shrinkOffset_spec loc h.target
  · exact shrinkOffset_spec loc d.address

/-- Concrete generator used to instantiate the `shrinkJump` offset theorem. -/
def fgShrinkWitness : BytecodeFunctionGenerator :=
  { BytecodeFunctionGenerator.create 0 with
    opcodes := [1, 2, 3, 4, 5, 6, 7, 8, 9, 10],
    exceptionHandlers := [⟨2, 9, 10⟩],
    debugLocations := [⟨7, 1, 2⟩] }

theorem shrinkJump_offsets_witness :
    ∃ h' d',
      (shrinkJump fgShrinkWitness 3).exceptionHandlers[0]? = some h' ∧
      (shrinkJump fgShrinkWitness 3).debugLocations[0]? = some d' ∧
      ((3 < 2 → h'.start = 2 - 3) ∧ (2 ≤ 3 → h'.start = 2) ∧
        (3 + 3 ≤ 2 → h'.start + 3 = 2)) ∧
      ((3 < 9 → h'.end_ = 9 - 3) ∧ (9 ≤ 3 → h'.end_ = 9) ∧
        (3 + 3 ≤ 9 → h'.end_ + 3 = 9)) ∧
      ((3 < 10 → h'.target = 10 - 3) ∧ (10 ≤ 3 → h'.target = 10) ∧
        (3 + 3 ≤ 10 → h'.target + 3 = 10)) ∧
      ((3 < 7 → d'.address = 7 - 3) ∧ (7 ≤ 3 → d'.address = 7) ∧
        (3 + 3 ≤ 7 → d'.address + 3 = 7)) ∧
      d'.line = 1 ∧ d'.column = 2 :=
  shrinkJump_offsets fgShrinkWitness 3 0 0 ⟨2, 9, 10⟩ ⟨7, 1, 2⟩ rfl rfl

/-- `longToShortJump` from the source header: a switch over the opcode byte at
`loc` rewriting each long-jump opcode to its short counterpart; the long→short
correspondence table is generated from `BytecodeList.def`, which is not among
the available sources, so it is passed as an explicit association list
(modelled from the spec: "a fixed long→short opcode correspondence table").
The `default: llvm_unreachable` branch — a fatal internal-consistency failure,
not a recoverable error — is modelled as `none`. -/
def longToShortJump (table : List (Nat × Nat))
    (fg : BytecodeFunctionGenerator) (loc : Nat) :
    Option BytecodeFunctionGenerator :=
  match table.find? (fun p => p.1 == fg.opcodes.getD loc 0) with
  | some p => some { fg with opcodes := fg.opcodes.set loc p.2 }
  | none => none

/-- C3: `longToShortJump` rewrites the opcode byte at `loc` to its short
counterpart per the fixed correspondence table; an unrecognized opcode hits
the fatal `llvm_unreachable` branch (modelled `none`), never a recoverable
value; under the precondition that the byte at `loc` is a long-jump opcode
(a key of the table) the fatal branch is unreachable. -/
theorem longToShortJump_spec (table : List (Nat × Nat))
    (fg : BytecodeFunctionGenerator) (loc : Nat) :
    (fg.opcodes.getD loc 0 ∈ table.map Prod.fst →
      ∃ sop, table.find? (fun p => p.1 == fg.opcodes.getD loc 0) =
          some (fg.opcodes.getD loc 0, sop) ∧
        longToShortJump table fg loc =
          some { fg with opcodes := fg.opcodes.set loc sop }) ∧
    (fg.opcodes.getD loc 0 ∉ table.map Prod.fst →
      longToShortJump table fg loc = none) := by
  constructor
  · intro hmem
    have hex : ∃ p ∈ table, (fun p : Nat × Nat => p.1 == fg.opcodes.getD loc 0) p := by
      obtain ⟨p, hp, hfst⟩ := List.mem_map.mp hmem
      exact ⟨p, hp, by simp [hfst]⟩
    obtain ⟨q, hq⟩ := Option.isSome_iff_exists.mp (List.find?_isSome.mpr hex)
    have hq1 : q.1 = fg.opcodes.getD loc 0 := by
      have := List.find?_some hq
      simpa using this
    refine ⟨q.2, ?_, ?_⟩
    · rw [hq]
      rw [← hq1]
    · unfold longToShortJump
      rw [hq]
  · intro hmem
    have hnone : table.find? (fun p => p.1 == fg.opcodes.getD loc 0) = none := by
      rw [List.find?_eq_none]
      intro p hp
      simp only [beq_iff_eq]
      intro hcontra
      exact hmem (List.mem_map.mpr ⟨p, hp, hcontra⟩)
    unfold longToShortJump
    rw [hnone]

/-- Concrete generator used to instantiate the `longToShortJump` theorem. -/
def fgJumpWitness : BytecodeFunctionGenerator :=
  { BytecodeFunctionGenerator.create 0 with opcodes := [7, 0, 0, 0, 0] }

theorem longToShortJump_spec_witness :
    (fgJumpWitness.opcodes.getD 0 0 ∈ [((7 : Nat), (3 : Nat))].map Prod.fst) ∧
    ∃ sop, [((7 : Nat), (3 : Nat))].find?
        (fun p => p.1 == fgJumpWitness.opcodes.getD 0 0) =
        some (fgJumpWitness.opcodes.getD 0 0, sop) ∧
      longToShortJump [(7, 3)] fgJumpWitness 0 =
        some { fgJumpWitness with opcodes := fgJumpWitness.opcodes.set 0 sop } :=
  ⟨by decide, (longToShortJump_spec [(7, 3)] fgJumpWitness 0).1 (by decide)⟩

/-- Does `buf` begin with `pat`? (byte-wise exact match). -/
def startsWith : List Nat → List Nat → Bool
  | [], _ => true
  | _ :: _, [] => false
  | a :: as, b :: bs => a == b && startsWith as bs

/-- First offset at which the exact byte pattern `pat` occurs contiguously in
`buf`, scanning from the front (the `std::search` of the source). -/
def findSubseq (pat : List Nat) : List Nat → Option Nat
  | [] => if startsWith pat [] then some 0 else none
  | b :: rest =>
    if startsWith pat (b :: rest) then some 0
    else (findSubseq pat rest).map (· + 1)

theorem startsWith_self (l : List Nat) : startsWith l l = true := by
  induction l with
  | nil => rfl
  | cons a l ih => simp [startsWith, ih]

theorem startsWith_nil_right (pat : List Nat) (h : pat ≠ []) :
    startsWith pat [] = false := by
  cases pat with
  | nil => exact absurd rfl h
  | cons a as => rfl

theorem findSubseq_nil (pat : List Nat) (h : pat ≠ []) :
    findSubseq pat [] = none := by
  simp [findSubseq, startsWith_nil_right pat h]

theorem findSubseq_self (l : List Nat) : findSubseq l l = some 0 := by
  cases l with
  | nil => rfl
  | cons a rest => simp [findSubseq, startsWith_self]

theorem findSubseq_of_startsWith_drop (pat : List Nat) (buf : List Nat)
    (n : Nat) (h : startsWith pat (buf.drop n) = true) :
    ∃ m ≤ n, findSubseq pat buf = some m := by
  induction buf generalizing n with
  | nil =>
    refine ⟨0, Nat.zero_le n, ?_⟩
    rw [List.drop_nil] at h
    simp [findSubseq, h]
  | cons b rest ih =>
    by_cases hsw : startsWith pat (b :: rest) = true
    · exact ⟨0, Nat.zero_le n, by simp [findSubseq, hsw]⟩
    · cases n with
      | zero => exact absurd h hsw
      | succ k =>
        rw [List.drop_succ_cons] at h
        obtain ⟨m, hm, hfind⟩ := ih k h
        refine ⟨m + 1, by omega, ?_⟩
        simp [findSubseq, hsw, hfind]

/-- A literal value handed to the literal-buffer serializer (`Literal *` in
the source; only its identity matters to this layer, the tagged byte format
being produced by the external serializer). -/
inductive SLit where
  | num (n : Int)
  | str (s : Nat)
deriving DecidableEq

/-- Modelled from the spec: the body of `serializeBuffer` is not part of the
available sources (declaration and doc comment only).  It encodes the
literals through the external literal serializer (passed as the `encode`
parameter, since `SerializedLiteralGenerator` is an out-of-scope
collaborator), searches the entire existing buffer for the exact byte
pattern, returns the offset of an existing occurrence without appending, and
otherwise appends and returns the new offset. -/
def serializeBuffer (encode : List SLit → Bool → List Nat)
    (literals : List SLit) (buff : List Nat) (isKeyBuffer : Bool) :
    Nat × List Nat :=
  let tmp := encode literals isKeyBuffer
  match findSubseq tmp buff with
  | some off => (off, buff)
  | none => (buff.length, buff ++ tmp)

theorem serializeBuffer_eq_found (encode : List SLit → Bool → List Nat)
    (literals : List SLit) (buff : List Nat) (isKeyBuffer : Bool) (off : Nat)
    (h : findSubseq (encode literals isKeyBuffer) buff = some off) :
    serializeBuffer encode literals buff isKeyBuffer = (off, buff) := by
  simp only [serializeBuffer]
  rw [h]

theorem serializeBuffer_eq_append (encode : List SLit → Bool → List Nat)
    (literals : List SLit) (buff : List Nat) (isKeyBuffer : Bool)
    (h : findSubseq (encode literals isKeyBuffer) buff = none) :
    serializeBuffer encode literals buff isKeyBuffer =
      (buff.length, buff ++ encode literals isKeyBuffer) := by
  simp only [serializeBuffer]
  rw [h]

/-- C5 (amended): `serializeBuffer` returns the offset of an existing
occurrence of the encoded bytes without touching the buffer, and otherwise
appends them and returns the old length; on a repeated call with the same
literal sequence the buffer is unchanged and the returned offset is *at
most* the first call's offset — not necessarily equal, because the appended
bytes can overlap the pre-existing buffer tail and create an occurrence
before the append point. -/
theorem serializeBuffer_spec (encode : List SLit → Bool → List Nat)
    (literals : List SLit) (buff : List Nat) (isKeyBuffer : Bool) :
    (∀ off, findSubseq (encode literals isKeyBuffer) buff = some off →
      serializeBuffer encode literals buff isKeyBuffer = (off, buff)) ∧
    (findSubseq (encode literals isKeyBuffer) buff = none →
      serializeBuffer encode literals buff isKeyBuffer =
        (buff.length, buff ++ encode literals isKeyBuffer)) ∧
    ((serializeBuffer encode literals
        (serializeBuffer encode literals buff isKeyBuffer).2 isKeyBuffer).2 =
      (serializeBuffer encode literals buff isKeyBuffer).2 ∧
      (serializeBuffer encode literals
        (serializeBuffer encode literals buff isKeyBuffer).2 isKeyBuffer).1 ≤
      (serializeBuffer encode literals buff isKeyBuffer).1) := by
  refine ⟨?_, ?_, ?_⟩
  · intro off hoff
    exact serializeBuffer_eq_found _ _ _ _ off hoff
  · intro hnone
    exact serializeBuffer_eq_append _ _ _ _ hnone
  · cases hfind : findSubseq (encode literals isKeyBuffer) buff with
    | some off =>
      have h1 := serializeBuffer_eq_found encode literals buff isKeyBuffer off hfind
      have h2 : serializeBuffer encode literals
          (serializeBuffer encode literals buff isKeyBuffer).2 isKeyBuffer =
          (off, buff) := by
        rw [h1]
        exact serializeBuffer_eq_found encode literals buff isKeyBuffer off hfind
      rw [h2, h1]
      exact ⟨rfl, le_refl _⟩
    | none =>
      have h1 := serializeBuffer_eq_append encode literals buff isKeyBuffer hfind
      have hdrop : startsWith (encode literals isKeyBuffer)
          ((buff ++ encode literals isKeyBuffer).drop buff.length) = true := by
        rw [List.drop_left]
        exact startsWith_self _
      obtain ⟨m, hm, hfind2⟩ :=
        findSubseq_of_startsWith_drop _ _ buff.length hdrop
      have h2 : serializeBuffer encode literals
          (serializeBuffer encode literals buff isKeyBuffer).2 isKeyBuffer =
          (m, buff ++ encode literals isKeyBuffer) := by
        rw [h1]
        exact serializeBuffer_eq_found encode literals
          (buff ++ encode literals isKeyBuffer) isKeyBuffer m hfind2
      rw [h2, h1]
      exact ⟨rfl, hm⟩

/-- A concrete stand-in for the external literal serializer, used only to
instantiate theorems about the buffer logic. -/
def encodeW : List SLit → Bool → List Nat :=
  fun ls _ => ls.flatMap fun l =>
    match l with
    | .num n => [n.toNat % 256]
    | .str s => [s % 256]

theorem serializeBuffer_spec_witness :
    (findSubseq (encodeW [SLit.num 2] false) [2, 5] = some 0 ∧
      serializeBuffer encodeW [SLit.num 2] [2, 5] false = (0, [2, 5])) ∧
    (findSubseq (encodeW [SLit.num 2] false) [3] = none ∧
      serializeBuffer encodeW [SLit.num 2] [3] false =
        ([3].length, [3] ++ encodeW [SLit.num 2] false)) :=
  ⟨⟨by decide, (serializeBuffer_spec encodeW [SLit.num 2] [2, 5] false).1 0 (by decide)⟩,
    ⟨by decide, (serializeBuffer_spec encodeW [SLit.num 2] [3] false).2.1 (by decide)⟩⟩

/-- C5, claim as stated, is false: serializing the same literal sequence
twice into the same buffer need not yield the same offset on the second
call.  With an encoding of `[1, 1]` appended to the buffer `[1]`, the first
call returns offset 1, but the grown buffer `[1, 1, 1]` contains the pattern
already at offset 0, which the second call returns. -/
theorem serializeBuffer_repeat_counterexample :
    (serializeBuffer encodeW [SLit.num 1, SLit.num 1] [1] false).1 = 1 ∧
    (serializeBuffer encodeW [SLit.num 1, SLit.num 1] [1] false).2 = [1, 1, 1] ∧
    (serializeBuffer encodeW [SLit.num 1, SLit.num 1] [1, 1, 1] false).1 = 0 ∧
    (serializeBuffer encodeW [SLit.num 1, SLit.num 1] [1, 1, 1] false).2 = [1, 1, 1] ∧
    (serializeBuffer encodeW [SLit.num 1, SLit.num 1] [1, 1, 1] false).1 ≠
      (serializeBuffer encodeW [SLit.num 1, SLit.num 1] [1] false).1 := by
  decide

/-- The assembled immutable module (only the parts the claims mention). -/
structure BytecodeModule where
  functions : List Nat
  entryPointIndex : Nat
deriving DecidableEq

/-- The module generator state, translated from the fields of
`BytecodeModuleGenerator` (functions are identified by `Nat` stand-ins for
`Function *`; only the fields the claims touch are carried). -/
structure BytecodeModuleGenerator where
  functionIDMap : AllocationTable Nat
  cjsModules : List (Nat × Nat)
  cjsModulesStatic : List Nat
  arrayBuffer : List Nat
  objKeyBuffer : List Nat
  objValBuffer : List Nat
  lazyFunctions : Bool
  valid : Bool
  entryPointIndex : Int
deriving DecidableEq

namespace BytecodeModuleGenerator

/-- A freshly constructed module generator: the in-class member initializers
of the source (`valid_{true}`, `entryPointIndex_{-1}`, empty tables and
buffers). -/
def init : BytecodeModuleGenerator :=
  ⟨.empty, [], [], [], [], [], false, true, -1⟩

/-- Source inline member `setEntryPointIndex`. -/
def setEntryPointIndex (m : BytecodeModuleGenerator) (index : Int) :
    BytecodeModuleGenerator :=
  { m with entryPointIndex := index }

/-- Modelled from the spec: `addFunction` is declared but not defined in the
available sources; per the spec it idempotently allocates the function in the
internal Allocation Table and returns the id. -/
def addFunction (m : BytecodeModuleGenerator) (f : Nat) :
    Nat × BytecodeModuleGenerator :=
  let r := m.functionIDMap.allocate f
  (r.1, { m with functionIDMap := r.2 })

/-- Modelled from the spec: `addObjectBuffer` is declared but not defined in
the available sources; it serializes the keys into the key buffer and the
values into the physically separate value buffer and returns both offsets. -/
def addObjectBuffer (encode : List SLit → Bool → List Nat)
    (m : BytecodeModuleGenerator) (keys vals : List SLit) :
    (Nat × Nat) × BytecodeModuleGenerator :=
  let rk := serializeBuffer encode keys m.objKeyBuffer true
  let rv := serializeBuffer encode vals m.objValBuffer false
  ((rk.1, rv.1), { m with objKeyBuffer := rk.2, objValBuffer := rv.2 })

/-- Modelled from the spec: `generate()` is declared but not defined in the
available sources; it is the one-shot terminal operation — it fails (a fatal
precondition violation, modelled `none`) on an already-consumed generator or
when the entry point is not a valid registered function id, and otherwise
produces the module and flips the validity flag. -/
def generate (m : BytecodeModuleGenerator) :
    Option BytecodeModule × BytecodeModuleGenerator :=
  if m.valid = false then (none, m)
  else if m.entryPointIndex < 0 ∨
      (m.functionIDMap.getElements.length : Int) ≤ m.entryPointIndex then
    (none, m)
  else
    (some ⟨m.functionIDMap.getElements, m.entryPointIndex.toNat⟩,
      { m with valid := false })

end BytecodeModuleGenerator

/-- C6: `addObjectBuffer` writes keys and values into physically separate
buffers with independent offsets: starting from a fresh generator, two calls
with identical keys but different values return the same key-buffer offset
(key dedup) and different value-buffer offsets, provided the external
encoder gives the first value sequence a non-empty encoding that does not
already contain the second's. -/
theorem addObjectBuffer_buffer_independence
    (encode : List SLit → Bool → List Nat) (keys v₁ v₂ : List SLit)
    (h1 : encode v₁ false ≠ [])
    (h2 : findSubseq (encode v₂ false) (encode v₁ false) = none) :
    (BytecodeModuleGenerator.addObjectBuffer encode
        (BytecodeModuleGenerator.addObjectBuffer encode
          BytecodeModuleGenerator.init keys v₁).2 keys v₂).1.1 =
      (BytecodeModuleGenerator.addObjectBuffer encode
        BytecodeModuleGenerator.init keys v₁).1.1 ∧
    (BytecodeModuleGenerator.addObjectBuffer encode
        (BytecodeModuleGenerator.addObjectBuffer encode
          BytecodeModuleGenerator.init keys v₁).2 keys v₂).1.2 ≠
      (BytecodeModuleGenerator.addObjectBuffer encode
        BytecodeModuleGenerator.init keys v₁).1.2 := by
  have hkey1 : serializeBuffer encode keys [] true = (0, encode keys true) := by
    cases henk : encode keys true with
    | nil =>
      have h0 : findSubseq (encode keys true) [] = some 0 := by
        rw [henk]
        rfl
      rw [serializeBuffer_eq_found encode keys [] true 0 h0]
    | cons b bs =>
      have hne : encode keys true ≠ [] := by rw [henk]; simp
      have := serializeBuffer_eq_append encode keys [] true (findSubseq_nil _ hne)
      simpa [henk] using this
  have hkey2 : serializeBuffer encode keys (encode keys true) true =
      (0, encode keys true) :=
    serializeBuffer_eq_found _ _ _ _ 0 (findSubseq_self _)
  have hv1 : serializeBuffer encode v₁ [] false = (0, encode v₁ false) := by
    have := serializeBuffer_eq_append encode v₁ [] false (findSubseq_nil _ h1)
    simpa using this
  have hv2 : serializeBuffer encode v₂ (encode v₁ false) false =
      ((encode v₁ false).length, encode v₁ false ++ encode v₂ false) :=
    serializeBuffer_eq_append encode v₂ (encode v₁ false) false h2
  constructor
  · show (serializeBuffer encode keys
        (serializeBuffer encode keys [] true).2 true).1 =
      (serializeBuffer encode keys [] true).1
    rw [hkey1]
    show (serializeBuffer encode keys (encode keys true) true).1 = 0
    rw [hkey2]
  · show (serializeBuffer encode v₂
        (serializeBuffer encode v₁ [] false).2 false).1 ≠
      (serializeBuffer encode v₁ [] false).1
    rw [hv1]
    show (serializeBuffer encode v₂ (encode v₁ false) false).1 ≠ 0
    rw [hv2]
    show (encode v₁ false).length ≠ 0
    simpa using h1

theorem addObjectBuffer_buffer_independence_witness :
    (encodeW [SLit.num 1] false ≠ [] ∧
      findSubseq (encodeW [SLit.num 2] false) (encodeW [SLit.num 1] false) = none) ∧
    (BytecodeModuleGenerator.addObjectBuffer encodeW
        (BytecodeModuleGenerator.addObjectBuffer encodeW
          BytecodeModuleGenerator.init [SLit.str 97] [SLit.num 1]).2
        [SLit.str 97] [SLit.num 2]).1.1 =
      (BytecodeModuleGenerator.addObjectBuffer encodeW
        BytecodeModuleGenerator.init [SLit.str 97] [SLit.num 1]).1.1 ∧
    (BytecodeModuleGenerator.addObjectBuffer encodeW
        (BytecodeModuleGenerator.addObjectBuffer encodeW
          BytecodeModuleGenerator.init [SLit.str 97] [SLit.num 1]).2
        [SLit.str 97] [SLit.num 2]).1.2 ≠
      (BytecodeModuleGenerator.addObjectBuffer encodeW
        BytecodeModuleGenerator.init [SLit.str 97] [SLit.num 1]).1.2 := by
  have h := addObjectBuffer_buffer_independence encodeW
    [SLit.str 97] [SLit.num 1] [SLit.num 2] (by decide) (by decide)
  exact ⟨⟨by decide, by decide⟩, h.1, h.2⟩

/-- C7: `generate()` is one-shot: on a fresh (valid) generator whose entry
point is a valid registered function id, the first call produces a module and
flips the validity flag from `true` (Fresh) to `false` (Consumed); a second
call on the resulting generator fails.  The flag starts `true` in a fresh
generator. -/
theorem generate_one_shot (m : BytecodeModuleGenerator)
    (hv : m.valid = true) (he : 0 ≤ m.entryPointIndex)
    (hlt : m.entryPointIndex < (m.functionIDMap.getElements.length : Int)) :
    BytecodeModuleGenerator.init.valid = true ∧
    (m.generate).1.isSome = true ∧
    (m.generate).2.valid = false ∧
    ((m.generate).2.generate).1 = none := by
  have hfst : m.generate =
      (some ⟨m.functionIDMap.getElements, m.entryPointIndex.toNat⟩,
        { m with valid := false }) := by
    unfold BytecodeModuleGenerator.generate
    rw [if_neg (by rw [hv]; simp), if_neg (by omega)]
  refine ⟨rfl, ?_, ?_, ?_⟩
  · rw [hfst]
    rfl
  · rw [hfst]
  · rw [hfst]
    unfold BytecodeModuleGenerator.generate
    rw [if_pos rfl]

theorem generate_one_shot_witness :
    (((BytecodeModuleGenerator.init.addFunction 5).2.setEntryPointIndex 0).valid = true ∧
      0 ≤ ((BytecodeModuleGenerator.init.addFunction 5).2.setEntryPointIndex 0).entryPointIndex ∧
      ((BytecodeModuleGenerator.init.addFunction 5).2.setEntryPointIndex 0).entryPointIndex <
        ((((BytecodeModuleGenerator.init.addFunction 5).2.setEntryPointIndex
          0).functionIDMap.getElements.length : Int))) ∧
    (((BytecodeModuleGenerator.init.addFunction 5).2.setEntryPointIndex 0).generate).1.isSome = true ∧
    (((BytecodeModuleGenerator.init.addFunction 5).2.setEntryPointIndex 0).generate).2.valid = false ∧
    ((((BytecodeModuleGenerator.init.addFunction 5).2.setEntryPointIndex 0).generate).2.generate).1 = none := by
  have h := generate_one_shot
    ((BytecodeModuleGenerator.init.addFunction 5).2.setEntryPointIndex 0)
    (by decide) (by decide) (by decide)
  exact ⟨⟨by decide, by decide, by decide⟩, h.2.1, h.2.2.1, h.2.2.2⟩

/-- C8: the entry-point index is initialized to −1 meaning unset, and invoking
`generate()` while it is still −1 is a precondition failure (no module is
produced). -/
theorem generate_entry_point_unset (m : BytecodeModuleGenerator) :
    BytecodeModuleGenerator.init.entryPointIndex = -1 ∧
    (m.entryPointIndex = -1 → (m.generate).1 = none) := by
  refine ⟨rfl, fun h => ?_⟩
  unfold BytecodeModuleGenerator.generate
  by_cases hv : m.valid = false
  · rw [if_pos hv]
  · rw [if_neg hv, if_pos (by rw [h]; norm_num)]

theorem generate_entry_point_unset_witness :
    BytecodeModuleGenerator.init.entryPointIndex = -1 ∧
    (BytecodeModuleGenerator.init.generate).1 = none :=
  ⟨rfl, (generate_entry_point_unset BytecodeModuleGenerator.init).2 rfl⟩

/-- One pending jump record as seen by the relocation driver: the stream
offset of the jump instruction, the absolute stream offset of its resolved
target, and whether it is still encoded in the long (wide-operand) form. -/
structure Jump where
  loc : Nat
  target : Nat
  isLong : Bool
deriving DecidableEq

/-- Resolved displacement of a jump, relative to the instruction start. -/
def Jump.disp (j : Jump) : Int := (j.target : Int) - (j.loc : Int)

/-- Whether a resolved displacement fits the short (1-byte signed) operand
("a long jump offset is found to fit into 1 byte", source doc comment of
`shrinkJump`). -/
def fitsShort (d : Int) : Prop := -128 ≤ d ∧ d ≤ 127

instance : DecidablePred fitsShort :=
  fun d => inferInstanceAs (Decidable (-128 ≤ d ∧ d ≤ 127))

/-- Relocation shift applied to a jump record when 3 bytes are removed at
shrink point `sp`: both its location and its target move by `shrinkOffset`,
its encoding width is untouched. -/
def shiftJump (sp : Nat) (j : Jump) : Jump :=
  ⟨shrinkOffset sp j.loc, shrinkOffset sp j.target, j.isLong⟩

/-- State of the relocation driver for one function: the function generator
plus the pending jump records. -/
structure RelocState where
  fg : BytecodeFunctionGenerator
  jumps : List Jump
deriving DecidableEq

/-- Number of jumps still in long encoding. -/
def countLong (js : List Jump) : Nat := js.countP fun j => j.isLong

/-- Modelled from the spec: the relocation driver that walks the pending
jumps of one pass is not part of the available sources (it lives in the
instruction-selection pass); per the spec it scans the jump records in
stream order, and for each long jump whose resolved displacement fits the
short operand it rewrites the opcode, removes the 3 superfluous operand
bytes via `shrinkJump` (the shrink point is the start of the removed operand
tail, `loc + 2`), and shifts every other recorded jump location and target
past the shrink point.  Returns the final generator, the updated jump
records, and the number of shrinks performed. -/
def passGo (fg : BytecodeFunctionGenerator) (done rem : List Jump) :
    BytecodeFunctionGenerator × List Jump × Nat :=
  match rem with
  | [] => (fg, done, 0)
  | j :: rest =>
    if j.isLong = true ∧ fitsShort j.disp then
      let r := passGo (shrinkJump fg (j.loc + 2))
        (done.map (shiftJump (j.loc + 2)) ++
          [⟨j.loc, shrinkOffset (j.loc + 2) j.target, false⟩])
        (rest.map (shiftJump (j.loc + 2)))
      (r.1, r.2.1, r.2.2 + 1)
    else
      passGo fg (done ++ [j]) rest
termination_by rem.length
decreasing_by
  all_goals simp

theorem passGo_nil (fg : BytecodeFunctionGenerator) (done : List Jump) :
    passGo fg done [] = (fg, done, 0) := by
  rw [passGo]

theorem passGo_cons_pos (fg : BytecodeFunctionGenerator) (done : List Jump)
    (j : Jump) (rest : List Jump) (hc : j.isLong = true ∧ fitsShort j.disp) :
    passGo fg done (j :: rest) =
      ((passGo (shrinkJump fg (j.loc + 2))
          (done.map (shiftJump (j.loc + 2)) ++
            [⟨j.loc, shrinkOffset (j.loc + 2) j.target, false⟩])
          (rest.map (shiftJump (j.loc + 2)))).1,
        (passGo (shrinkJump fg (j.loc + 2))
          (done.map (shiftJump (j.loc + 2)) ++
            [⟨j.loc, shrinkOffset (j.loc + 2) j.target, false⟩])
          (rest.map (shiftJump (j.loc + 2)))).2.1,
        (passGo (shrinkJump fg (j.loc + 2))
          (done.map (shiftJump (j.loc + 2)) ++
            [⟨j.loc, shrinkOffset (j.loc + 2) j.target, false⟩])
          (rest.map (shiftJump (j.loc + 2)))).2.2 + 1) := by
  rw [passGo, if_pos hc]

theorem passGo_cons_neg (fg : BytecodeFunctionGenerator) (done : List Jump)
    (j : Jump) (rest : List Jump) (hc : ¬(j.isLong = true ∧ fitsShort j.disp)) :
    passGo fg done (j :: rest) = passGo fg (done ++ [j]) rest := by
  rw [passGo, if_neg hc]

/-- One full scan-and-shrink pass over all pending jumps of a function,
returning the new state and the number of shrinks the pass performed. -/
def passOnce (s : RelocState) : RelocState × Nat :=
  let r := passGo s.fg [] s.jumps
  (⟨r.1, r.2.1⟩, r.2.2)

theorem shrinkJump_length_le (fg : BytecodeFunctionGenerator) (loc : Nat) :
    (shrinkJump fg loc).opcodes.length ≤ fg.opcodes.length := by
  simp [shrinkJump]
  omega

theorem shrinkJump_length_lt (fg : BytecodeFunctionGenerator) (loc : Nat)
    (h : loc + 3 ≤ fg.opcodes.length) :
    (shrinkJump fg loc).opcodes.length < fg.opcodes.length := by
  simp [shrinkJump]
  omega

theorem fitsShort_shiftJump (sp : Nat) (h2 : 2 ≤ sp) (j : Jump)
    (hf : fitsShort j.disp) : fitsShort (shiftJump sp j).disp := by
  rcases hf with ⟨hlo, hhi⟩
  simp only [Jump.disp, shiftJump, shrinkOffset] at *
  constructor
  all_goals split_ifs <;> omega

theorem countLong_map_shiftJump (sp : Nat) (l : List Jump) :
    countLong (l.map (shiftJump sp)) = countLong l := by
  unfold countLong
  rw [List.countP_map]
  rfl

theorem countLong_append (l₁ l₂ : List Jump) :
    countLong (l₁ ++ l₂) = countLong l₁ + countLong l₂ := by
  simp [countLong, List.countP_append]

theorem passGo_countLong (fg : BytecodeFunctionGenerator)
    (done rem : List Jump) :
    countLong (passGo fg done rem).2.1 + (passGo fg done rem).2.2 =
      countLong done + countLong rem := by
  induction fg, done, rem using passGo.induct with
  | case1 fg done => simp [passGo_nil, countLong]
  | case2 fg done j rest hc ih =>
    rw [passGo_cons_pos fg done j rest hc]
    dsimp only
    rw [← Nat.add_assoc, ih, countLong_append, countLong_map_shiftJump,
      countLong_map_shiftJump]
    have h1 : countLong [(⟨j.loc, shrinkOffset (j.loc + 2) j.target, false⟩ : Jump)] = 0 := rfl
    have h2 : countLong (j :: rest) = countLong rest + 1 := by
      simp [countLong, List.countP_cons, hc.1]
    rw [h1, h2]
    omega
  | case3 fg done j rest hc ih =>
    rw [passGo_cons_neg fg done j rest hc, ih, countLong_append]
    have hcons : countLong (j :: rest) = countLong [j] + countLong rest := by
      have := countLong_append [j] rest
      simpa using this
    rw [hcons]
    omega

theorem passGo_zero (fg : BytecodeFunctionGenerator) (done rem : List Jump)
    (h : (passGo fg done rem).2.2 = 0) :
    passGo fg done rem = (fg, done ++ rem, 0) := by
  induction fg, done, rem using passGo.induct with
  | case1 fg done => simp [passGo_nil]
  | case2 fg done j rest hc ih =>
    rw [passGo_cons_pos fg done j rest hc] at h
    dsimp only at h
    omega
  | case3 fg done j rest hc ih =>
    rw [passGo_cons_neg fg done j rest hc] at h ⊢
    rw [ih h]
    simp

theorem passGo_zero_no_shrinkable (fg : BytecodeFunctionGenerator)
    (done rem : List Jump) (h : (passGo fg done rem).2.2 = 0) :
    ∀ j ∈ rem, ¬(j.isLong = true ∧ fitsShort j.disp) := by
  induction fg, done, rem using passGo.induct with
  | case1 fg done => simp
  | case2 fg done j rest hc ih =>
    rw [passGo_cons_pos fg done j rest hc] at h
    dsimp only at h
    omega
  | case3 fg done j rest hc ih =>
    rw [passGo_cons_neg fg done j rest hc] at h
    intro k hk
    cases hk with
    | head => exact hc
    | tail _ hmem => exact ih h k hmem

theorem passGo_allFit (fg : BytecodeFunctionGenerator) (done rem : List Jump) :
    (∀ j ∈ rem, j.isLong = true → fitsShort j.disp) →
    (∀ j ∈ done, j.isLong = false) →
    ∀ j ∈ (passGo fg done rem).2.1, j.isLong = false := by
  induction fg, done, rem using passGo.induct with
  | case1 fg done =>
    intro _ hdone
    rw [passGo_nil]
    exact hdone
  | case2 fg done j rest hc ih =>
    intro hfit hdone
    rw [passGo_cons_pos fg done j rest hc]
    dsimp only
    refine ih ?_ ?_
    · intro k hk hlong
      obtain ⟨k₀, hk₀, hkeq⟩ := List.mem_map.mp hk
      have hk₀long : k₀.isLong = true := by
        rw [← hkeq] at hlong
        exact hlong
      have := hfit k₀ (List.mem_cons_of_mem j hk₀) hk₀long
      rw [← hkeq]
      exact fitsShort_shiftJump (j.loc + 2) (by omega) k₀ this
    · intro k hk
      rcases List.mem_append.mp hk with hkm | hks
      · obtain ⟨k₀, hk₀, hkeq⟩ := List.mem_map.mp hkm
        rw [← hkeq]
        exact hdone k₀ hk₀
      · simp at hks
        rw [hks]
  | case3 fg done j rest hc ih =>
    intro hfit hdone
    rw [passGo_cons_neg fg done j rest hc]
    refine ih ?_ ?_
    · exact fun k hk => hfit k (List.mem_cons_of_mem j hk)
    · intro k hk
      rcases List.mem_append.mp hk with hkm | hks
      · exact hdone k hkm
      · simp at hks
        rw [hks]
        by_cases hl : j.isLong = true
        · exact absurd ⟨hl, hfit j (List.mem_cons_self j rest) hl⟩ hc
        · simpa using hl

theorem passGo_allShort (fg : BytecodeFunctionGenerator) (done rem : List Jump) :
    (∀ j ∈ rem, j.isLong = false) → passGo fg done rem = (fg, done ++ rem, 0) := by
  induction fg, done, rem using passGo.induct with
  | case1 fg done =>
    intro _
    simp [passGo_nil]
  | case2 fg done j rest hc ih =>
    intro hall
    have := hall j (List.mem_cons_self j rest)
    rw [this] at hc
    exact absurd hc.1 (by simp)
  | case3 fg done j rest hc ih =>
    intro hall
    rw [passGo_cons_neg fg done j rest hc]
    rw [ih fun k hk => hall k (List.mem_cons_of_mem j hk)]
    simp

theorem passGo_length_le (fg : BytecodeFunctionGenerator) (done rem : List Jump) :
    (passGo fg done rem).1.opcodes.length ≤ fg.opcodes.length := by
  induction fg, done, rem using passGo.induct with
  | case1 fg done =>
    rw [passGo_nil]
  | case2 fg done j rest hc ih =>
    rw [passGo_cons_pos fg done j rest hc]
    exact le_trans ih (shrinkJump_length_le fg (j.loc + 2))
  | case3 fg done j rest hc ih =>
    rw [passGo_cons_neg fg done j rest hc]
    exact ih

theorem passOnce_zero (s : RelocState) (h : (passOnce s).2 = 0) :
    (passOnce s).1 = s := by
  have := passGo_zero s.fg [] s.jumps h
  show (⟨(passGo s.fg [] s.jumps).1, (passGo s.fg [] s.jumps).2.1⟩ : RelocState) = s
  rw [this]
  simp

theorem passOnce_allShort (s : RelocState)
    (h : ∀ j ∈ s.jumps, j.isLong = false) : passOnce s = (s, 0) := by
  have := passGo_allShort s.fg [] s.jumps h
  show (⟨⟨(passGo s.fg [] s.jumps).1, (passGo s.fg [] s.jumps).2.1⟩,
    (passGo s.fg [] s.jumps).2.2⟩ : RelocState × Nat) = (s, 0)
  rw [this]
  simp

/-- Repeat the scan-and-shrink pass until a full pass performs zero shrinks.
Total by well-founded recursion: every pass that shrinks converts at least
one long jump to short and never creates long jumps, so the number of
remaining long jumps strictly decreases (each shrink also removes exactly 3
stream bytes, the spec's length measure). -/
def runPasses (s : RelocState) : RelocState :=
  if h0 : (passOnce s).2 = 0 then (passOnce s).1
  else runPasses (passOnce s).1
termination_by countLong s.jumps
decreasing_by
  have h := passGo_countLong s.fg [] s.jumps
  have hz : countLong ([] : List Jump) = 0 := rfl
  rw [hz] at h
  show countLong (passGo s.fg [] s.jumps).2.1 < countLong s.jumps
  have h0' : (passGo s.fg [] s.jumps).2.2 ≠ 0 := h0
  omega

/-- C1: for every function whose long jumps all have resolved displacements
fitting the short encoding, the repeated scan-and-shrink relocation pass
reaches a fixed point — a full pass performing zero shrinks — with no
shrinkable long jumps remaining; moreover each (valid) `shrinkJump` strictly
decreases the opcode-stream length, and a pass never increases it, which is
the measure guaranteeing termination of the repeated scanning (`runPasses`
is total). -/
theorem relocation_fixed_point (s : RelocState)
    (hfit : ∀ j ∈ s.jumps, j.isLong = true → fitsShort j.disp) :
    passOnce (runPasses s) = (runPasses s, 0) ∧
    (∀ j ∈ (runPasses s).jumps, ¬(j.isLong = true ∧ fitsShort j.disp)) ∧
    (∀ (fg : BytecodeFunctionGenerator) (loc : Nat),
      loc + 3 ≤ fg.opcodes.length →
      (shrinkJump fg loc).opcodes.length < fg.opcodes.length) ∧
    (∀ t : RelocState, (passOnce t).1.fg.opcodes.length ≤ t.fg.opcodes.length) := by
  have hall : ∀ j ∈ (passOnce s).1.jumps, j.isLong = false :=
    passGo_allFit s.fg [] s.jumps hfit (by simp)
  have hlenle : ∀ t : RelocState,
      (passOnce t).1.fg.opcodes.length ≤ t.fg.opcodes.length :=
    fun t => passGo_length_le t.fg [] t.jumps
  rw [runPasses]
  by_cases h0 : (passOnce s).2 = 0
  · rw [dif_pos h0]
    have hps : (passOnce s).1 = s := passOnce_zero s h0
    rw [hps]
    refine ⟨?_, ?_, shrinkJump_length_lt, hlenle⟩
    · have : passOnce s = ((passOnce s).1, (passOnce s).2) := rfl
      rw [this, hps, h0]
    · exact passGo_zero_no_shrinkable s.fg [] s.jumps h0
  · rw [dif_neg h0]
    have h2 : passOnce (passOnce s).1 = ((passOnce s).1, 0) :=
      passOnce_allShort _ hall
    have hz : (passOnce (passOnce s).1).2 = 0 := by rw [h2]
    rw [runPasses, dif_pos hz]
    have h1 : (passOnce (passOnce s).1).1 = (passOnce s).1 := by rw [h2]
    rw [h1]
    refine ⟨h2, ?_, shrinkJump_length_lt, hlenle⟩
    intro j hj hcontra
    rw [hall j hj] at hcontra
    exact absurd hcontra.1 (by simp)

/-- Concrete relocation state used to instantiate the fixed-point theorem:
two long jumps (a forward and a backward one) whose displacements fit the
short encoding. -/
def relocStateW : RelocState :=
  ⟨{ BytecodeFunctionGenerator.create 0 with
      opcodes := [1, 0, 0, 0, 0, 1, 0, 0, 0, 0] },
    [⟨0, 10, true⟩, ⟨5, 0, true⟩]⟩

theorem relocation_fixed_point_witness :
    (∀ j ∈ relocStateW.jumps, j.isLong = true → fitsShort j.disp) ∧
    (passOnce (runPasses relocStateW) = (runPasses relocStateW, 0) ∧
      (∀ j ∈ (runPasses relocStateW).jumps,
        ¬(j.isLong = true ∧ fitsShort j.disp)) ∧
      (∀ (fg : BytecodeFunctionGenerator) (loc : Nat),
        loc + 3 ≤ fg.opcodes.length →
        (shrinkJump fg loc).opcodes.length < fg.opcodes.length) ∧
      (∀ t : RelocState,
        (passOnce t).1.fg.opcodes.length ≤ t.fg.opcodes.length)) :=
  ⟨by decide, relocation_fixed_point relocStateW (by decide)⟩

end Hbc
